import Mathlib

set_option autoImplicit false

/-! Verification of the pyClarion construct-process core against its
specification.  The development shallowly embeds the data model and the
operations of `base/components.py` and `components/rules.py`: construct
symbols and addresses, activation maps (numdicts), the
`Process`/`Composite`/`Wrapped` hierarchy, and the rule database with its
promise-based update protocol.  Machinery from `base/symbols.py` and the
`numdicts` package is not part of the provided sources; those pieces are
modelled from the specification and are marked as such in their doc
comments. -/

namespace PyClarion

/-- A construct symbol: a construct-type tag together with a construct
identifier.  The construct type (`ConstructType`) is a bit-flag set, modelled
as a natural-number bitmask; identifiers are modelled as naturals. -/
structure Symbol where
  ctype : Nat
  cid : Nat
deriving DecidableEq, Repr

/-- Flag-set membership as used by `construct.ctype in type(self)._serves`:
every bit of `c` is contained in the flag set `s`. -/
def ctypeIn (c s : Nat) : Bool :=
  c &&& s == c

/-- Modelled from the spec: `expand_address` lives in `base/symbols.py`, which
is not among the provided sources.  Per the spec's expansion rule, an address
already beginning with the client path is left unchanged; otherwise the client
path is prepended. -/
def expand_address (client : List Symbol) (addr : List Symbol) : List Symbol :=
  if client.isPrefixOf addr then addr else client ++ addr

/-- First-match lookup in an association list (the observable behavior of a
Python `dict` keyed by first occurrence). -/
def findVal {K V : Type} [DecidableEq K] (k : K) : List (K × V) → Option V
  | [] => none
  | (k', v) :: rest => if k' = k then some v else findVal k rest

/-- Rational addition built directly from numerators and denominators.  The
library implementations of rational addition, subtraction, multiplication and
division are irreducible, which would block kernel evaluation of concrete
runs; these forms evaluate, and agree with the library operations
(`radd_eq` and companions below). -/
def radd (a b : Rat) : Rat :=
  Rat.divInt (a.num * (b.den : Int) + (a.den : Int) * b.num)
    ((a.den : Int) * (b.den : Int))

/-- Rational subtraction built directly from numerators and denominators
(see `radd`). -/
def rsub (a b : Rat) : Rat :=
  Rat.divInt (a.num * (b.den : Int) - (a.den : Int) * b.num)
    ((a.den : Int) * (b.den : Int))

/-- Rational multiplication built directly from numerators and denominators
(see `radd`). -/
def rmul (a b : Rat) : Rat :=
  Rat.divInt (a.num * b.num) ((a.den : Int) * (b.den : Int))

/-- Rational division built directly from numerators and denominators
(see `radd`). -/
def rdiv (a b : Rat) : Rat :=
  Rat.divInt (a.num * (b.den : Int)) ((a.den : Int) * b.num)

/-- Sum of a list of rationals (see `radd`). -/
def rsum (l : List Rat) : Rat :=
  l.foldr radd 0

/-- An activation map (`nd.NumDict`): a sparse mapping from keys to rational
strengths together with a default strength.  Modelled from the spec as an
association list keyed by first occurrence (the `numdicts` package is not
among the provided sources). -/
structure NumDict (K : Type) where
  entries : List (K × Rat)
  default : Rat
deriving DecidableEq, Repr

instance {K : Type} : Inhabited (NumDict K) := ⟨⟨[], 0⟩⟩

/-- Modelled from the spec: `nd.squeeze` drops every entry whose value equals
the map's default, leaving the default unchanged. -/
def squeeze {K : Type} (d : NumDict K) : NumDict K :=
  ⟨d.entries.filter (fun p => decide (p.2 ≠ d.default)), d.default⟩

/-- Modelled from the spec: `nd.val_sum` is the sum of the explicit values of
an entry list. -/
def val_sum {K : Type} (l : List (K × Rat)) : Rat :=
  rsum (l.map Prod.snd)

/-- A raw value as passed to `emit`: a frozen activation-map snapshot or a
mutable activation-map builder — both instances of the activation-map type
`nd.NumDict` (the source's rule components return mutable maps through `emit`,
which freezes them) — or a value outside the activation-map union that still
carries a `default` attribute (`other`).  The latter models the duck-typed
non-instances contemplated by `emit`'s `TypeError` branch: a value without a
`default` attribute would fail the attribute read before reaching any of
`emit`'s own checks, so only its `default` attribute is relevant here. -/
inductive D (K : Type) where
  | frozen (m : NumDict K)
  | mutable (m : NumDict K)
  | other (dflt : Rat)
deriving DecidableEq, Repr

/-- The underlying map of an activation-map value; a non-map value is
presented as the empty map carrying its `default` attribute (only the default
of a non-map value is ever read). -/
def D.dmap {K : Type} : D K → NumDict K
  | frozen m => m
  | mutable m => m
  | other dflt => ⟨[], dflt⟩

/-- Whether a value is an instance of the activation-map type
(`isinstance(data, nd.NumDict)`): true for both the frozen snapshot and the
mutable builder, false for a value outside the activation-map union. -/
def D.isNumDict {K : Type} : D K → Bool
  | frozen _ => true
  | mutable _ => true
  | other _ => false

/-- Errors raised by `Process.emit`: `InvalidDefault` stands for the
`ValueError` on a nonzero default, `InvalidOutputType` for the `TypeError` on
a non-`NumDict` value. -/
inductive EmitErr where
  | InvalidDefault
  | InvalidOutputType
deriving DecidableEq, Repr

/-- `Process.emit`: `None` yields an empty map with default 0; a value whose
default is nonzero raises `InvalidDefault`; an activation-map instance
(frozen or mutable) with default 0 is squeezed and returned as a frozen
snapshot ("emits a frozen version of data"); a non-instance value raises
`InvalidOutputType`.  The branch order follows the source: the default check
precedes the instance check. -/
def emit {K : Type} (data : Option (D K)) : Except EmitErr (NumDict K) :=
  match data with
  | none => .ok ⟨[], 0⟩
  | some d =>
    if (D.dmap d).default ≠ 0 then .error .InvalidDefault
    else
      match d with
      | .frozen m => .ok (squeeze m)
      | .mutable m => .ok (squeeze m)
      | .other _ => .error .InvalidOutputType

/-- The `Process`/`Composite` hierarchy restricted to the state the addressing
claims concern.  A primitive process (`Process.__init__`) holds its servable
construct-type flag set (the class attribute `_serves`), its relative expected
addresses (`_expected`), and its client path (`_client`); a composite layer
(`Composite.__init__`) holds the extra expected addresses private to the layer
(`_expected_top`) and its base process (`_base`).  Addresses are modelled as
symbol lists. -/
inductive Proc where
  | prim (serves : Nat) (expectedRel : List (List Symbol)) (client : List Symbol)
  | comp (top : List (List Symbol)) (base : Proc)
deriving DecidableEq, Repr

/-- The `_expected` attribute: a composite stores its own extra addresses
followed by the base's stored addresses (`_expected = _expected + base._expected`). -/
def Proc.uexpected : Proc → List (List Symbol)
  | .prim _ e _ => e
  | .comp top b => top ++ b.uexpected

/-- The `client` property: a primitive process returns its own binding, a
composite delegates to its base. -/
def Proc.client : Proc → List Symbol
  | .prim _ _ c => c
  | .comp _ b => b.client

/-- The `_serves` flag set governing entrustment; `Composite.entrust` forwards
to the base, so the base's flag set is the one consulted. -/
def Proc.serves : Proc → Nat
  | .prim s _ _ => s
  | .comp _ b => b.serves

/-- The `expected` property: every stored relative address expanded against
the client path. -/
def Proc.expected (p : Proc) : List (List Symbol) :=
  p.uexpected.map (expand_address p.client)

/-- The `Composite.expected_top` property: the composite's own extra expected
addresses expanded against the (delegated) client path. -/
def Proc.expected_top : Proc → List (List Symbol)
  | .prim _ _ _ => []
  | .comp top b => top.map (expand_address b.client)

/-- Errors raised by `Process.entrust`: `KindMismatch` stands for the
`ValueError` on a servable-kind failure; `IndexErr` for the `IndexError`
raised by `path[-1]` on an empty path. -/
inductive EntrustErr where
  | KindMismatch
  | IndexErr
deriving DecidableEq, Repr

/-- `Process.entrust` / `Composite.entrust`: a composite forwards entrustment
to its base; a primitive process binds its client to the path when the last
symbol's construct type is contained in its servable flag set, and raises
`KindMismatch` otherwise.  The current client binding is never consulted. -/
def Proc.entrust : Proc → List Symbol → Except EntrustErr Proc
  | .prim s e _, path =>
    match path.getLast? with
    | none => .error .IndexErr
    | some construct =>
      if ctypeIn construct.ctype s then .ok (.prim s e path)
      else .error .KindMismatch
  | .comp top b, path => (b.entrust path).map (Proc.comp top)

/-- The error raised by `Process.check_inputs`: the `RuntimeError` naming the
first expected address missing from the input bundle. -/
inductive InputErr where
  | MissingInput (addr : List Symbol)
deriving DecidableEq, Repr

/-- `Process.check_inputs`: walk the expected addresses in declared order and
raise `MissingInput` at the first one absent from the input bundle. -/
def check_inputs {V : Type} (exp : List (List Symbol))
    (inputs : List (List Symbol × V)) : Except InputErr Unit :=
  match exp with
  | [] => .ok ()
  | a :: rest =>
    match findVal a inputs with
    | none => .error (.MissingInput a)
    | some _ => check_inputs rest inputs

/-- `Process.extract_inputs`: check the inputs, then return the value at each
expected address, in declared order.  The fallback value of `getD` is never
reached after a successful check. -/
def extract_inputs {V : Type} [Inhabited V] (p : Proc)
    (inputs : List (List Symbol × V)) : Except InputErr (List V) :=
  match check_inputs p.expected inputs with
  | .error e => .error e
  | .ok _ => .ok (p.expected.map (fun a => (findVal a inputs).getD default))

/-- An input bundle as passed to a process call: addresses paired with
activation maps. -/
abbrev Inputs (K : Type) := List (List Symbol × NumDict K)

/-- The `Wrapped` hierarchy restricted to the behavior the propagation claim
concerns: a primitive process with an arbitrary core `call`, or a wrapped
layer holding the `preprocess` and `postprocess` hooks over a base process
(identity hooks recover the defaults of `Wrapped`). -/
inductive WProc (K : Type) where
  | prim (callFn : Inputs K → D K)
  | wrapped (pre : Inputs K → Inputs K) (post : Inputs K → D K → D K) (base : WProc K)

/-- `Process.call` / `Wrapped.call`: a wrapped layer feeds the base process
preprocessed inputs and postprocesses the base's raw output
(`postprocess(inputs, base.call(preprocess(inputs)))`). -/
def WProc.call {K : Type} : WProc K → Inputs K → D K
  | .prim f, i => f i
  | .wrapped pre post b, i => post i (b.call (pre i))

/-- `Process.__call__`, the full one-shot propagation cycle:
`emit(call(inputs))`. -/
def WProc.propagate {K : Type} (p : WProc K) (i : Inputs K) :
    Except EmitErr (NumDict K) :=
  emit (some (p.call i))

/-- The specification's reading of `Wrapped.propagate`, for comparison with
the source semantics: the postprocessor applied to the base's full propagation
cycle (including the base's own emit validation). -/
def wrappedPropagateSpec {K : Type} (pre : Inputs K → Inputs K)
    (post : Inputs K → D K → D K) (b : WProc K) (i : Inputs K) :
    Except EmitErr (D K) :=
  (b.propagate (pre i)).map (fun out => post i (D.frozen out))

/-- The base process of the `Wrapped` counterexample: it always returns the
frozen map holding only the squeezable entry `0 ↦ 0`, with default 0. -/
def cexBase : WProc Nat :=
  .prim (fun _ => .frozen ⟨[(0, 0)], 0⟩)

/-- The postprocessor of the `Wrapped` counterexample: it reports the number
of entries in the base's output at key 1. -/
def cexPost (_ : Inputs Nat) (out : D Nat) : D Nat :=
  .frozen ⟨[(1, (out.dmap.entries.length : Rat))], 0⟩

/-- A rule form (the `Rule` class): a conclusion chunk together with the
condition-weight map.  Chunk and rule symbols are modelled as naturals; the
weight numdict is modelled by its entry list (its default, `None` in the
source, plays no role in the claims). -/
structure RuleForm where
  conc : Nat
  weights : List (Nat × Rat)
deriving DecidableEq, Repr

/-- `MutableNumDict.extend` as used by `Rule.__init__`: walk the conditions
and append weight 1 for each condition not already present.  Modelled from the
spec (the `numdicts` package is not among the provided sources). -/
def extendWeights (ws : List (Nat × Rat)) : List Nat → List (Nat × Rat)
  | [] => ws
  | c :: cs =>
    extendWeights (if (findVal c ws).isSome then ws else ws ++ [(c, 1)]) cs

/-- `Rule.__init__`: extend the given weights to cover every condition with
weight 1, then renormalize by the weight sum whenever that sum exceeds 1.
The `ValueError` preconditions in the source construct exceptions without
raising them, so no validation takes effect. -/
def mkRule (conc : Nat) (conds : List Nat) (weights : List (Nat × Rat)) :
    RuleForm :=
  let ws := extendWeights weights conds
  let s := val_sum ws
  ⟨conc, if 1 < s then ws.map (fun p => (p.1, rdiv p.2 s)) else ws⟩

/-- `Rule.strength`: the weighted sum of condition strengths, reading a
missing condition's strength off the strength map's default
(`val_sum(keep(strengths, keys=weights) * weights)`). -/
def ruleStrength (weights : List (Nat × Rat)) (strengths : NumDict Nat) : Rat :=
  rsum (weights.map
    (fun p => rmul p.2 ((findVal p.1 strengths.entries).getD strengths.default)))

/-- The `Rules` database: the rule contents (`_data`), the `max_conds` bound,
and the promised additions (`_add_promises`, insertion-ordered) and deletions
(`_del_promises`, a set modelled as a duplicate-free list). -/
structure RulesDB where
  data : List (Nat × RuleForm)
  max_conds : Option Nat
  add_promises : List (Nat × RuleForm)
  del_promises : List Nat
deriving DecidableEq, Repr

/-- Errors raised by the rule database: `PromisedUpdate` for a rule already
registered for a promised update, `NonExistentRule` for deleting a rule not in
the database, `MaxCondsExceeded` for `_validate_rule_form`, and `KeyErr` for
deleting an absent key at update time. -/
inductive RulesErr where
  | PromisedUpdate
  | NonExistentRule
  | MaxCondsExceeded
  | KeyErr
deriving DecidableEq, Repr

/-- `Rules.request_add`: reject a rule already registered for a promised
update, otherwise record the pending addition.  The rule contents are not
touched and the form is not validated. -/
def RulesDB.request_add (db : RulesDB) (r : Nat) (form : RuleForm) :
    Except RulesErr RulesDB :=
  if (findVal r db.add_promises).isSome || db.del_promises.contains r then
    .error .PromisedUpdate
  else
    .ok { db with add_promises := db.add_promises ++ [(r, form)] }

/-- `Rules.request_del`: reject a rule already registered for a promised
update, reject a rule that is not a member of the database, otherwise record
the pending deletion.  The rule contents are not touched. -/
def RulesDB.request_del (db : RulesDB) (r : Nat) : Except RulesErr RulesDB :=
  if (findVal r db.add_promises).isSome || db.del_promises.contains r then
    .error .PromisedUpdate
  else if (findVal r db.data).isSome then
    .ok { db with del_promises := db.del_promises ++ [r] }
  else
    .error .NonExistentRule

/-- `Rules._validate_rule_form`: reject a form with more conditions than
`max_conds` allows. -/
def validate_rule_form (max_conds : Option Nat) (form : RuleForm) :
    Except RulesErr Unit :=
  match max_conds with
  | none => .ok ()
  | some n => if n < form.weights.length then .error .MaxCondsExceeded else .ok ()

/-- Dictionary assignment on the rule contents: overwrite the entry at an
existing key, or append a new entry. -/
def upsert (data : List (Nat × RuleForm)) (r : Nat) (form : RuleForm) :
    List (Nat × RuleForm) :=
  if (findVal r data).isSome then
    data.map (fun p => if p.1 = r then (r, form) else p)
  else
    data ++ [(r, form)]

/-- `Rules.__setitem__` for well-typed rule forms: validate against
`max_conds`, then assign.  (The support check is active only inside the
`enforce_support` initialization scope, and the non-`Rule` branch constructs a
`TypeError` without raising it; neither is reachable here.) -/
def setItem (max_conds : Option Nat) (data : List (Nat × RuleForm)) (r : Nat)
    (form : RuleForm) : Except RulesErr (List (Nat × RuleForm)) :=
  match validate_rule_form max_conds form with
  | .error e => .error e
  | .ok _ => .ok (upsert data r form)

/-- `Rules.__delitem__` (`del self._data[key]`): remove the entry at the key,
raising `KeyErr` when the key is absent. -/
def delKey (data : List (Nat × RuleForm)) (r : Nat) :
    Except RulesErr (List (Nat × RuleForm)) :=
  if (findVal r data).isSome then
    .ok (data.filter (fun p => decide (p.1 ≠ r)))
  else
    .error .KeyErr

/-- `Rules.step`: delete every promised deletion, then apply every promised
addition through `__setitem__`, then clear both promise logs.  An error along
the way propagates (aborting the update). -/
def RulesDB.step (db : RulesDB) : Except RulesErr RulesDB := do
  let d1 ← db.del_promises.foldlM delKey db.data
  let d2 ← db.add_promises.foldlM
    (fun d p => setItem db.max_conds d p.1 p.2) d1
  pure { db with data := d2, add_promises := [], del_promises := [] }

/-- Modelled from the spec: `nd.threshold` with `keep_default` — entries at or
below the threshold are dropped, the default is kept. -/
def nthreshold {K : Type} (d : NumDict K) (th : Rat) : NumDict K :=
  ⟨d.entries.filter (fun p => decide (th < p.2)), d.default⟩

/-- Modelled from the spec: `nd.boltzmann` — the Boltzmann selection
distribution over the entries.  The spec leaves the weighting formula out of
scope, so the positive weighting function `w` (standing for
`v ↦ exp(v / temperature)`) is a parameter; each entry's probability is its
weight divided by the total weight. -/
def boltzmann {K : Type} (w : Rat → Rat) (d : NumDict K) : NumDict K :=
  let total := rsum (d.entries.map (fun p => w p.2))
  ⟨d.entries.map (fun p => (p.1, rdiv (w p.2) total)), 0⟩

/-- Cumulative sampling over an entry list: select the first key whose
probability mass covers the random number `u`. -/
def drawGo {K : Type} : List (K × Rat) → Rat → Option K
  | [], _ => none
  | (k, p) :: rest, u => if u < p then some k else drawGo rest (rsub u p)

/-- Modelled from the spec: `nd.draw` with `n=1` — sample one key according to
the given probabilities, consuming one random number `u` from the unit
interval, and return the indicator map of the selection. -/
def draw {K : Type} (probs : NumDict K) (u : Rat) : NumDict K :=
  ⟨((drawGo probs.entries u).map (fun k => (k, (1 : Rat)))).toList, 0⟩

/-- Modelled from the spec: elementwise product `d *= sel` restricted to `d`'s
keys (the selection's keys are always among `d`'s); missing keys read the
selection's default. -/
def mulBy {K : Type} [DecidableEq K] (d sel : NumDict K) : NumDict K :=
  ⟨d.entries.map
      (fun p => (p.1, rmul p.2 ((findVal p.1 sel.entries).getD sel.default))),
    rmul d.default sel.default⟩

/-- Modelled from the spec: elementwise maximum over the union of keys,
missing keys reading the other map's default. -/
def ndMax {K : Type} [DecidableEq K] (a b : NumDict K) : NumDict K :=
  ⟨(a.entries.map
      (fun p => (p.1, max p.2 ((findVal p.1 b.entries).getD b.default)))) ++
    ((b.entries.filter (fun p => decide (findVal p.1 a.entries = none))).map
      (fun p => (p.1, max a.default p.2))),
    max a.default b.default⟩

/-- `nd.transform_keys` with `func = lambda r: self.rules[r].conc`: re-key
every entry of the selected-rule map by its rule's conclusion. -/
def transformConc (rules : RulesDB) (d : NumDict Nat) : NumDict Nat :=
  ⟨d.entries.map (fun p => (((findVal p.1 rules.data).getD ⟨0, []⟩).conc, p.2)),
    d.default⟩

/-- The rule-strength map `d` built by `ActionRules.call`: every rule in the
database scored against the thresholded strengths, with default 0. -/
def actionRulesScore (rules : RulesDB) (strengths : NumDict Nat) : NumDict Nat :=
  ⟨rules.data.map (fun p => (p.1, ruleStrength p.2.weights strengths)), 0⟩

/-- The Boltzmann selection step of `ActionRules.call`: the indicator map of
the rule drawn (with random number `u`) from the Boltzmann distribution over
the rule strengths. -/
def actionRulesSelect (w : Rat → Rat) (rules : RulesDB) (th : Rat)
    (strengths0 : NumDict Nat) (u : Rat) : NumDict Nat :=
  draw (boltzmann w (actionRulesScore rules (nthreshold strengths0 th))) u

/-- `ActionRules.call`: extract the source strengths, threshold them, score
every rule, select one by Boltzmann sampling (consuming the random draw `u`),
and propagate the selected rule's strength to the rule and its conclusion. -/
def actionRulesCall (w : Rat → Rat) (rules : RulesDB) (th : Rat)
    (source : List Symbol) (inputs : Inputs Nat) (u : Rat) :
    Except InputErr (NumDict Nat) :=
  match findVal source inputs with
  | none => .error (.MissingInput source)
  | some strengths0 =>
    let d := actionRulesScore rules (nthreshold strengths0 th)
    let selection := actionRulesSelect w rules th strengths0 u
    let d2 := squeeze (mulBy d selection)
    .ok (ndMax d2 (transformConc rules d2))

/-- The rule database of the `ActionRules` counterexample: two single-condition
action rules of equal strength — rule 10 concludes chunk 100, rule 20 concludes
chunk 200, both conditioned on chunk 1 with weight 1. -/
def cexRules : RulesDB :=
  ⟨[(10, ⟨100, [(1, 1)]⟩), (20, ⟨200, [(1, 1)]⟩)], some 1, [], []⟩

/-- Decidable equality of `Except` results, used to evaluate concrete runs of
the embedded operations. -/
instance {ε α : Type} [DecidableEq ε] [DecidableEq α] : DecidableEq (Except ε α)
  | .ok x, .ok y =>
    if h : x = y then .isTrue (congrArg Except.ok h)
    else .isFalse (fun hh => h (Except.ok.inj hh))
  | .ok _, .error _ => .isFalse (fun hh => Except.noConfusion hh)
  | .error _, .ok _ => .isFalse (fun hh => Except.noConfusion hh)
  | .error e, .error f =>
    if h : e = f then .isTrue (congrArg Except.error h)
    else .isFalse (fun hh => h (Except.error.inj hh))

/-- `radd` agrees with the library's rational addition. -/
theorem radd_eq (a b : Rat) : radd a b = a + b := by
  rw [radd, Rat.add_num_den a b]

/-- `rsub` agrees with the library's rational subtraction. -/
theorem rsub_eq (a b : Rat) : rsub a b = a - b := by
  rw [sub_eq_add_neg, Rat.add_num_den a (-b), Rat.neg_num, Rat.neg_den]
  rw [rsub]
  congr 1
  ring

/-- `rmul` agrees with the library's rational multiplication. -/
theorem rmul_eq (a b : Rat) : rmul a b = a * b := by
  conv_rhs => rw [← Rat.num_divInt_den a, ← Rat.num_divInt_den b]
  rw [Rat.divInt_mul_divInt', rmul]

/-- `rdiv` agrees with the library's rational division. -/
theorem rdiv_eq (a b : Rat) : rdiv a b = a / b := by
  rw [rdiv, Rat.div_def' a b]

/-- `rsum` agrees with the library's list sum. -/
theorem rsum_eq (l : List Rat) : rsum l = l.sum := by
  induction l with
  | nil => rfl
  | cons x xs ih => rw [rsum, List.foldr_cons, List.sum_cons, ← ih, radd_eq]; rfl

/-- C1: for every `Composite` instance (entrusted or not), its `expected` list
equals the composite's own extra expected addresses expanded against the
shared client path (`expected_top`), followed by the base process's `expected`
list, preserving the order of both parts. -/
theorem composite_expected_append (top : List (List Symbol)) (b : Proc) :
    (Proc.comp top b).expected = (Proc.comp top b).expected_top ++ b.expected := by
  simp [Proc.expected, Proc.expected_top, Proc.uexpected, Proc.client]

/-- C2 (amended): for every `Wrapped` process and input bundle, the full
propagation cycle equals the wrapper's emit validation applied once to
`postprocess(inputs, base.call(preprocess(inputs)))`; the base's own emit is
not invoked. -/
theorem wrapped_propagate_eq {K : Type} (pre : Inputs K → Inputs K)
    (post : Inputs K → D K → D K) (b : WProc K) (i : Inputs K) :
    (WProc.wrapped pre post b).propagate i
      = emit (some (post i (b.call (pre i)))) := rfl

/-- C2 (counterexample): the cycle of a `Wrapped` process with this
postprocessor emits `{1 ↦ 1}` (the postprocessor sees the base's raw,
unsqueezed output), whereas postprocessing the base's full propagate — as the
claim states — yields `{1 ↦ 0}`. -/
theorem wrapped_propagate_cex :
    (WProc.wrapped id cexPost cexBase).propagate [] = .ok ⟨[(1, 1)], 0⟩ ∧
    wrappedPropagateSpec id cexPost cexBase [] = .ok (.frozen ⟨[(1, 0)], 0⟩) ∧
    (⟨[(1, 1)], 0⟩ : NumDict Nat) ≠ ⟨[(1, 0)], 0⟩ := by
  refine ⟨by decide, by decide, by decide⟩

/-- C3 (amended): `emit(None)` returns the empty map with default 0; `emit`
raises `InvalidDefault` whenever the value's default is not exactly 0 (this
check precedes the instance check, so it also catches non-instance values
carrying a nonzero default); `emit` raises `InvalidOutputType` when the value
is not an activation-map instance and its default is 0; and `emit` of an
activation-map instance — frozen or mutable — with default 0 returns its
squeezed (frozen) version. -/
theorem emit_spec {K : Type} (d : D K) :
    emit (K := K) none = .ok ⟨[], 0⟩ ∧
    ((D.dmap d).default ≠ 0 → emit (some d) = .error .InvalidDefault) ∧
    (d.isNumDict = false → (D.dmap d).default = 0 →
      emit (some d) = .error .InvalidOutputType) ∧
    (d.isNumDict = true → (D.dmap d).default = 0 →
      emit (some d) = .ok (squeeze (D.dmap d))) := by
  refine ⟨rfl, fun hd => ?_, fun hi hd => ?_, fun hi hd => ?_⟩
  · cases d <;> simp [emit, D.dmap] at hd ⊢ <;> simp [hd]
  · cases d <;> simp [D.isNumDict] at hi <;> simp [emit, D.dmap] at hd ⊢ <;> simp [hd]
  · cases d <;> simp [D.isNumDict] at hi <;> simp [emit, D.dmap] at hd ⊢ <;> simp [hd]

/-- C3 (counterexample): a non-activation-map value whose default attribute is
1 is rejected with `InvalidDefault` (the default check runs first), not with
`InvalidOutputType` as the claim requires for every non-instance value. -/
theorem emit_cex :
    D.isNumDict (K := Nat) (.other 1) = false ∧
    emit (K := Nat) (some (.other 1)) = .error .InvalidDefault ∧
    EmitErr.InvalidDefault ≠ EmitErr.InvalidOutputType := by decide

/-- Witness for C3: the amended `emit` behavior evaluated at concrete values —
a non-instance value with default 3 raises `InvalidDefault`, a non-instance
value with default 0 raises `InvalidOutputType`, and both a mutable and a
frozen activation map with default 0 are accepted and squeezed (the zero
entries are dropped). -/
theorem emit_spec_witness :
    emit (K := Nat) (some (.other 3)) = .error .InvalidDefault ∧
    emit (K := Nat) (some (.other 0)) = .error .InvalidOutputType ∧
    emit (K := Nat) (some (.mutable ⟨[(1, 2), (3, 0)], 0⟩)) = .ok ⟨[(1, 2)], 0⟩ ∧
    emit (K := Nat) (some (.frozen ⟨[(4, 5), (6, 0)], 0⟩)) = .ok ⟨[(4, 5)], 0⟩ :=
  ⟨(emit_spec (K := Nat) (.other 3)).2.1 (by decide),
   (emit_spec (K := Nat) (.other 0)).2.2.1 (by decide) (by decide),
   ((emit_spec (K := Nat) (.mutable ⟨[(1, 2), (3, 0)], 0⟩)).2.2.2
      (by decide) (by decide)).trans (by decide),
   ((emit_spec (K := Nat) (.frozen ⟨[(4, 5), (6, 0)], 0⟩)).2.2.2
      (by decide) (by decide)).trans (by decide)⟩

/-- A successful entrustment: when the last symbol's construct type is
contained in the servable flag set, `entrust` returns a process whose client
is the path and whose flag set and stored expected addresses are unchanged. -/
theorem entrust_ok_of_kind (p : Proc) (path : List Symbol) (last : Symbol)
    (h : path.getLast? = some last) (hk : ctypeIn last.ctype p.serves = true) :
    ∃ q, p.entrust path = .ok q ∧ q.client = path ∧
      q.serves = p.serves ∧ q.uexpected = p.uexpected := by
  induction p with
  | prim s e c =>
    simp [Proc.serves] at hk
    exact ⟨.prim s e path, by simp [Proc.entrust, h, hk], rfl, rfl, rfl⟩
  | comp top b ih =>
    simp [Proc.serves] at hk
    obtain ⟨q, hq, hcl, hsv, hux⟩ := ih hk
    exact ⟨.comp top q, by simp [Proc.entrust, hq, Except.map],
      by simpa [Proc.client] using hcl, by simpa [Proc.serves] using hsv,
      by simp [Proc.uexpected, hux]⟩

/-- A failed entrustment: when the last symbol's construct type is not
contained in the servable flag set, `entrust` raises `KindMismatch`. -/
theorem entrust_err_of_kind (p : Proc) (path : List Symbol) (last : Symbol)
    (h : path.getLast? = some last) (hk : ctypeIn last.ctype p.serves = false) :
    p.entrust path = .error .KindMismatch := by
  induction p with
  | prim s e c =>
    simp [Proc.serves] at hk
    simp [Proc.entrust, h, hk]
  | comp top b ih =>
    simp [Proc.serves] at hk
    simp [Proc.entrust, ih hk, Except.map]

/-- C4: for every process and non-empty path, `entrust` succeeds and binds the
client to the path exactly when the construct type of the path's last symbol
is contained in the process's servable flag set, and fails with `KindMismatch`
otherwise. -/
theorem entrust_kind_check (p : Proc) (path : List Symbol) (last : Symbol)
    (h : path.getLast? = some last) :
    (ctypeIn last.ctype p.serves = true →
      ∃ q, p.entrust path = .ok q ∧ q.client = path) ∧
    (ctypeIn last.ctype p.serves = false →
      p.entrust path = .error .KindMismatch) := by
  constructor
  · intro hk
    obtain ⟨q, hq, hcl, -, -⟩ := entrust_ok_of_kind p path last h hk
    exact ⟨q, hq, hcl⟩
  · exact entrust_err_of_kind p path last h

/-- Witness for C4: a process serving flag set 3 accepts a path ending in a
kind-1 symbol and binds to it; a process serving flag set 4 rejects the same
path with `KindMismatch`. -/
theorem entrust_kind_check_witness :
    (∃ q, (Proc.prim 3 [] []).entrust [⟨1, 7⟩] = .ok q ∧ q.client = [⟨1, 7⟩]) ∧
    (Proc.prim 4 [] []).entrust [⟨1, 7⟩] = .error .KindMismatch :=
  ⟨(entrust_kind_check (.prim 3 [] []) [⟨1, 7⟩] ⟨1, 7⟩ (by decide)).1 (by decide),
   (entrust_kind_check (.prim 4 [] []) [⟨1, 7⟩] ⟨1, 7⟩ (by decide)).2 (by decide)⟩

/-- C5 (counterexample): a process already successfully entrusted to
`[⟨1, 1⟩]` accepts a second kind-compatible entrustment and rebinds its
client to `[⟨1, 2⟩]` instead of failing. -/
theorem entrust_twice_cex :
    (Proc.prim 1 [] []).entrust [⟨1, 1⟩] = .ok (.prim 1 [] [⟨1, 1⟩]) ∧
    (Proc.prim 1 [] [⟨1, 1⟩]).entrust [⟨1, 2⟩] = .ok (.prim 1 [] [⟨1, 2⟩]) ∧
    (Proc.prim 1 [] [⟨1, 2⟩]).client = [⟨1, 2⟩] := by decide

/-- C5 (amended): `entrust` never consults the current binding — a second
kind-compatible call on an already entrusted process succeeds and rebinds the
client to the new path. -/
theorem entrust_second_call (p q : Proc) (path1 path2 : List Symbol)
    (last : Symbol) (h1 : p.entrust path1 = .ok q)
    (h2 : path2.getLast? = some last)
    (hk : ctypeIn last.ctype q.serves = true) :
    ∃ r, q.entrust path2 = .ok r ∧ r.client = path2 := by
  obtain ⟨r, hr, hcl, -, -⟩ := entrust_ok_of_kind q path2 last h2 hk
  exact ⟨r, hr, hcl⟩

/-- Witness for C5 (amended): after a first entrustment to `[⟨1, 1⟩]`, a
second call with `[⟨1, 2⟩]` succeeds and rebinds. -/
theorem entrust_second_call_witness :
    ∃ r, (Proc.prim 1 [] [⟨1, 1⟩]).entrust [⟨1, 2⟩] = .ok r ∧
      r.client = [⟨1, 2⟩] :=
  entrust_second_call (.prim 1 [] []) (.prim 1 [] [⟨1, 1⟩]) [⟨1, 1⟩] [⟨1, 2⟩]
    ⟨1, 2⟩ (by decide) (by decide) (by decide)

/-- `check_inputs` succeeds when every expected address is present. -/
theorem check_inputs_ok {V : Type} (exp : List (List Symbol))
    (inputs : List (List Symbol × V))
    (hall : ∀ a ∈ exp, (findVal a inputs).isSome) :
    check_inputs exp inputs = .ok () := by
  induction exp with
  | nil => rfl
  | cons a rest ih =>
    obtain ⟨v, hv⟩ := Option.isSome_iff_exists.mp (hall a (List.mem_cons_self a rest))
    simp only [check_inputs, hv]
    exact ih (fun b hb => hall b (List.mem_cons_of_mem a hb))

/-- `check_inputs` raises `MissingInput` naming an absent expected address
whenever some expected address is absent. -/
theorem check_inputs_missing {V : Type} (exp : List (List Symbol))
    (inputs : List (List Symbol × V)) (a : List Symbol) (ha : a ∈ exp)
    (hnone : findVal a inputs = none) :
    ∃ b ∈ exp, findVal b inputs = none ∧
      check_inputs exp inputs = .error (.MissingInput b) := by
  induction exp with
  | nil => cases ha
  | cons c rest ih =>
    cases hc : findVal c inputs with
    | none =>
      exact ⟨c, List.mem_cons_self c rest, hc, by simp [check_inputs, hc]⟩
    | some v =>
      have ha' : a ∈ rest := by
        rcases List.mem_cons.mp ha with h | h
        · subst h; rw [hc] at hnone; cases hnone
        · exact h
      obtain ⟨b, hb, hbn, hcb⟩ := ih ha'
      exact ⟨b, List.mem_cons_of_mem c hb, hbn, by simp [check_inputs, hc, hcb]⟩

/-- C6: for every process and input bundle, `extract_inputs` returns the input
maps in the declared order of the expanded expected addresses when every such
address is present, and raises `MissingInput` naming an absent expected
address whenever some expanded expected address is missing from the bundle. -/
theorem extract_inputs_spec {V : Type} [Inhabited V] (p : Proc)
    (inputs : List (List Symbol × V)) :
    ((∀ a ∈ p.expected, (findVal a inputs).isSome) →
      extract_inputs p inputs
        = .ok (p.expected.map (fun a => (findVal a inputs).getD default))) ∧
    (∀ a ∈ p.expected, findVal a inputs = none →
      ∃ b ∈ p.expected, findVal b inputs = none ∧
        extract_inputs p inputs = .error (.MissingInput b)) := by
  constructor
  · intro hall
    simp [extract_inputs, check_inputs_ok p.expected inputs hall]
  · intro a ha hnone
    obtain ⟨b, hb, hbn, hcb⟩ := check_inputs_missing p.expected inputs a ha hnone
    exact ⟨b, hb, hbn, by simp [extract_inputs, hcb]⟩

/-- Witness for C6: a process expecting relative address `[⟨2, 1⟩]` with
client `[⟨1, 0⟩]` expects the absolute address `[⟨1, 0⟩, ⟨2, 1⟩]`; with that
address supplied, extraction returns its map; with an empty bundle, it raises
`MissingInput` naming it. -/
theorem extract_inputs_spec_witness :
    extract_inputs (V := NumDict Nat) (Proc.prim 0 [[⟨2, 1⟩]] [⟨1, 0⟩])
        [([⟨1, 0⟩, ⟨2, 1⟩], ⟨[(5, 1)], 0⟩)] = .ok [⟨[(5, 1)], 0⟩] ∧
    (∃ b ∈ (Proc.prim 0 [[⟨2, 1⟩]] [⟨1, 0⟩]).expected,
      findVal b ([] : List (List Symbol × NumDict Nat)) = none ∧
        extract_inputs (V := NumDict Nat) (Proc.prim 0 [[⟨2, 1⟩]] [⟨1, 0⟩]) []
          = .error (.MissingInput b)) :=
  ⟨((extract_inputs_spec (V := NumDict Nat) (Proc.prim 0 [[⟨2, 1⟩]] [⟨1, 0⟩])
      [([⟨1, 0⟩, ⟨2, 1⟩], ⟨[(5, 1)], 0⟩)]).1 (by decide)).trans (by decide),
   (extract_inputs_spec (V := NumDict Nat) (Proc.prim 0 [[⟨2, 1⟩]] [⟨1, 0⟩]) []).2
      [⟨1, 0⟩, ⟨2, 1⟩] (by decide) (by decide)⟩

/-- C7 (amended): `ActionRules.call` is deterministic as a function of the
input bundle, the rule database, and the Boltzmann draw it consumes — two
calls on identical inputs whose draws produce the same selection return
identical outputs.  (The counterexample shows calls consuming different draws
can differ.) -/
theorem action_rules_selection_determined (w : Rat → Rat) (rules : RulesDB)
    (th : Rat) (source : List Symbol) (inputs : Inputs Nat) (u u' : Rat)
    (s0 : NumDict Nat) (hs : findVal source inputs = some s0)
    (h : actionRulesSelect w rules th s0 u = actionRulesSelect w rules th s0 u') :
    actionRulesCall w rules th source inputs u
      = actionRulesCall w rules th source inputs u' := by
  unfold actionRulesCall
  rw [hs]
  dsimp only
  rw [h]

/-- C7 (counterexample): with identical input bundles and an identical rule
database, two successive `ActionRules` propagations that consume different
random draws (1/4 and 3/4) select different rules and return different
outputs. -/
theorem action_rules_cex :
    actionRulesCall (fun _ => 1) cexRules 0 [⟨1, 1⟩]
        [([⟨1, 1⟩], ⟨[(1, 1)], 0⟩)] (mkRat 1 4) = .ok ⟨[(10, 1), (100, 1)], 0⟩ ∧
    actionRulesCall (fun _ => 1) cexRules 0 [⟨1, 1⟩]
        [([⟨1, 1⟩], ⟨[(1, 1)], 0⟩)] (mkRat 3 4) = .ok ⟨[(20, 1), (200, 1)], 0⟩ ∧
    (⟨[(10, 1), (100, 1)], 0⟩ : NumDict Nat) ≠ ⟨[(20, 1), (200, 1)], 0⟩ := by
  refine ⟨by decide, by decide, by decide⟩

/-- Witness for C7 (amended): the draws 1/8 and 1/4 both select rule 10, so
the two propagations coincide. -/
theorem action_rules_selection_determined_witness :
    actionRulesCall (fun _ => 1) cexRules 0 [⟨1, 1⟩]
        [([⟨1, 1⟩], ⟨[(1, 1)], 0⟩)] (mkRat 1 8)
      = actionRulesCall (fun _ => 1) cexRules 0 [⟨1, 1⟩]
        [([⟨1, 1⟩], ⟨[(1, 1)], 0⟩)] (mkRat 1 4) :=
  action_rules_selection_determined (fun _ => 1) cexRules 0 [⟨1, 1⟩]
    [([⟨1, 1⟩], ⟨[(1, 1)], 0⟩)] (mkRat 1 8) (mkRat 1 4) ⟨[(1, 1)], 0⟩
    (by decide) (by decide)

/-- C9: the rule database admits at most one pending update per rule symbol —
`request_add` and `request_del` each raise `PromisedUpdate` when the rule is
already registered for a pending addition or deletion, and `request_del`
additionally raises `NonExistentRule` when the rule is not a member of the
database contents. -/
theorem rules_request_guards (db : RulesDB) (r : Nat) (f : RuleForm) :
    (((findVal r db.add_promises).isSome = true ∨ r ∈ db.del_promises) →
      db.request_add r f = .error .PromisedUpdate ∧
      db.request_del r = .error .PromisedUpdate) ∧
    (findVal r db.add_promises = none → r ∉ db.del_promises →
      findVal r db.data = none →
      db.request_del r = .error .NonExistentRule) := by
  constructor
  · intro hreg
    have hb : ((findVal r db.add_promises).isSome || db.del_promises.contains r)
        = true := by
      rcases hreg with h | h
      · simp [h]
      · simp [List.contains, h]
    constructor
    · unfold RulesDB.request_add
      rw [hb]
      rfl
    · unfold RulesDB.request_del
      rw [hb]
      rfl
  · intro h1 h2 h3
    have hb : ((findVal r db.add_promises).isSome || db.del_promises.contains r)
        = false := by
      simp [List.contains, h1, h2]
    unfold RulesDB.request_del
    rw [hb]
    simp [h3]

/-- Witness for C9: a database with rule 5 pending addition rejects both
requests for 5; an empty database rejects deleting the absent rule 5. -/
theorem rules_request_guards_witness :
    (RulesDB.mk [] none [(5, ⟨0, [(1, 1)]⟩)] []).request_add 5 ⟨0, [(1, 1)]⟩
      = .error .PromisedUpdate ∧
    (RulesDB.mk [] none [(5, ⟨0, [(1, 1)]⟩)] []).request_del 5
      = .error .PromisedUpdate ∧
    (RulesDB.mk [] none [] []).request_del 5 = .error .NonExistentRule :=
  ⟨((rules_request_guards (RulesDB.mk [] none [(5, ⟨0, [(1, 1)]⟩)] []) 5
      ⟨0, [(1, 1)]⟩).1 (by decide)).1,
   ((rules_request_guards (RulesDB.mk [] none [(5, ⟨0, [(1, 1)]⟩)] []) 5
      ⟨0, [(1, 1)]⟩).1 (by decide)).2,
   (rules_request_guards (RulesDB.mk [] none [] []) 5 ⟨0, [(1, 1)]⟩).2
      (by decide) (by decide) (by decide)⟩

/-- Binding a successful `Except` result applies the continuation. -/
theorem except_bind_ok {ε α β : Type} (a : α) (f : α → Except ε β) :
    (Except.ok (ε := ε) a >>= f) = f a := rfl

/-- Removing the entries at one key does not affect lookups at another. -/
theorem findVal_filter_ne {V : Type} (data : List (Nat × V)) (r s : Nat)
    (hrs : r ≠ s) :
    findVal r (data.filter (fun p => decide (p.1 ≠ s))) = findVal r data := by
  induction data with
  | nil => rfl
  | cons p rest ih =>
    obtain ⟨k, v⟩ := p
    by_cases hk : k = s
    · subst hk
      have hkr : k ≠ r := fun hh => hrs hh.symm
      simp only [findVal, List.filter_cons, hkr, if_false]
      rw [if_neg (by simp)]
      exact ih
    · by_cases hkr : k = r
      · subst hkr
        simp only [List.filter_cons]
        rw [if_pos (by simp [hk])]
        simp [findVal]
      · simp only [List.filter_cons]
        rw [if_pos (by simp [hk])]
        simp only [findVal, hkr, if_false]
        exact ih

/-- Promised deletions, all naming current members and free of duplicates,
apply as successive filters on the contents. -/
theorem foldlM_delKey_ok (del : List Nat) (data : List (Nat × RuleForm))
    (hnd : del.Nodup) (hmem : ∀ r ∈ del, (findVal r data).isSome) :
    del.foldlM delKey data
      = .ok (del.foldl (fun d r => d.filter (fun p => decide (p.1 ≠ r))) data) := by
  induction del generalizing data with
  | nil => rfl
  | cons d ds ih =>
    have hd := hmem d (List.mem_cons_self d ds)
    have hstep : delKey data d = .ok (data.filter (fun p => decide (p.1 ≠ d))) := by
      unfold delKey
      rw [hd]
      rfl
    obtain ⟨hdd, hnd'⟩ := List.nodup_cons.mp hnd
    have hmem' : ∀ r ∈ ds, (findVal r (data.filter
        (fun p => decide (p.1 ≠ d)))).isSome := by
      intro r hr
      rw [findVal_filter_ne data r d (fun hh => hdd (hh ▸ hr))]
      exact hmem r (List.mem_cons_of_mem d hr)
    rw [List.foldlM_cons, hstep, except_bind_ok, ih _ hnd' hmem', List.foldl_cons]

/-- Promised additions, all passing rule-form validation, apply as successive
assignments on the contents. -/
theorem foldlM_setItem_ok (adds : List (Nat × RuleForm)) (mc : Option Nat)
    (data : List (Nat × RuleForm))
    (hval : ∀ p ∈ adds, validate_rule_form mc p.2 = .ok ()) :
    adds.foldlM (fun d p => setItem mc d p.1 p.2) data
      = .ok (adds.foldl (fun d p => upsert d p.1 p.2) data) := by
  induction adds generalizing data with
  | nil => rfl
  | cons p rest ih =>
    have hv := hval p (List.mem_cons_self p rest)
    have hstep : setItem mc data p.1 p.2 = .ok (upsert data p.1 p.2) := by
      unfold setItem
      rw [hv]
    rw [List.foldlM_cons, hstep, except_bind_ok,
      ih _ (fun q hq => hval q (List.mem_cons_of_mem p hq)), List.foldl_cons]

/-- C8 (amended): `request_add` and `request_del` leave the rule contents
unchanged; and `step` — provided the promised deletions are duplicate-free and
name current members, and every promised addition passes rule-form validation
(`max_conds`) — applies every pending deletion, then every pending addition,
and leaves both promise logs empty.  (The counterexample shows `step` fails
when a pending addition violates validation.) -/
theorem rules_promises_spec (db : RulesDB) (r : Nat) (f : RuleForm) :
    (∀ db', db.request_add r f = .ok db' → db'.data = db.data) ∧
    (∀ db', db.request_del r = .ok db' → db'.data = db.data) ∧
    (db.del_promises.Nodup →
      (∀ s ∈ db.del_promises, (findVal s db.data).isSome) →
      (∀ p ∈ db.add_promises, validate_rule_form db.max_conds p.2 = .ok ()) →
      db.step = .ok
        { db with
          data := db.add_promises.foldl (fun d p => upsert d p.1 p.2)
            (db.del_promises.foldl
              (fun d s => d.filter (fun q => decide (q.1 ≠ s))) db.data),
          add_promises := [], del_promises := [] }) := by
  refine ⟨?_, ?_, ?_⟩
  · intro db' h
    unfold RulesDB.request_add at h
    split at h
    · cases h
    · cases h
      rfl
  · intro db' h
    unfold RulesDB.request_del at h
    split at h
    · cases h
    · split at h
      · cases h
        rfl
      · cases h
  · intro hnd hmem hval
    unfold RulesDB.step
    rw [foldlM_delKey_ok db.del_promises db.data hnd hmem, except_bind_ok,
      foldlM_setItem_ok db.add_promises db.max_conds _ hval, except_bind_ok]
    rfl

/-- C8 (counterexample): a database with `max_conds = 1` accepts a
two-condition addition request (requests are not validated), but `step` then
fails validation with `MaxCondsExceeded`, so the pending addition is not
applied and the promise logs are not cleared. -/
theorem rules_step_cex :
    (RulesDB.mk [] (some 1) [] []).request_add 7 (mkRule 5 [1, 2] [])
      = .ok ⟨[], some 1, [(7, mkRule 5 [1, 2] [])], []⟩ ∧
    (RulesDB.mk [] (some 1) [(7, mkRule 5 [1, 2] [])] []).step
      = .error .MaxCondsExceeded := by
  refine ⟨by decide, by decide⟩

/-- Witness for C8: on a database holding rules 1 and 2, with rule 3 pending
addition and rule 1 pending deletion, the requests leave the contents
unchanged and `step` deletes rule 1, adds rule 3, and clears both logs. -/
theorem rules_promises_spec_witness :
    (RulesDB.mk [(1, mkRule 0 [1] []), (2, mkRule 0 [1] [])] (some 1)
        [(3, mkRule 0 [1] []), (9, mkRule 0 [1] [])] [1]).data
      = [(1, mkRule 0 [1] []), (2, mkRule 0 [1] [])] ∧
    (RulesDB.mk [(1, mkRule 0 [1] []), (2, mkRule 0 [1] [])] (some 1)
        [(3, mkRule 0 [1] [])] [1, 2]).data
      = [(1, mkRule 0 [1] []), (2, mkRule 0 [1] [])] ∧
    (RulesDB.mk [(1, mkRule 0 [1] []), (2, mkRule 0 [1] [])] (some 1)
        [(3, mkRule 0 [1] [])] [1]).step
      = .ok ⟨[(2, mkRule 0 [1] []), (3, mkRule 0 [1] [])], some 1, [], []⟩ :=
  ⟨(rules_promises_spec
      (RulesDB.mk [(1, mkRule 0 [1] []), (2, mkRule 0 [1] [])] (some 1)
        [(3, mkRule 0 [1] [])] [1]) 9 (mkRule 0 [1] [])).1
      (RulesDB.mk [(1, mkRule 0 [1] []), (2, mkRule 0 [1] [])] (some 1)
        [(3, mkRule 0 [1] []), (9, mkRule 0 [1] [])] [1]) (by decide),
   (rules_promises_spec
      (RulesDB.mk [(1, mkRule 0 [1] []), (2, mkRule 0 [1] [])] (some 1)
        [(3, mkRule 0 [1] [])] [1]) 2 (mkRule 0 [1] [])).2.1
      (RulesDB.mk [(1, mkRule 0 [1] []), (2, mkRule 0 [1] [])] (some 1)
        [(3, mkRule 0 [1] [])] [1, 2]) (by decide),
   ((rules_promises_spec
      (RulesDB.mk [(1, mkRule 0 [1] []), (2, mkRule 0 [1] [])] (some 1)
        [(3, mkRule 0 [1] [])] [1]) 0 (mkRule 0 [1] [])).2.2
      (by decide) (by decide) (by decide)).trans (by decide)⟩

/-- Lookup distributes over list append, preferring the first list. -/
theorem findVal_append {K V : Type} [DecidableEq K] (k : K)
    (l1 l2 : List (K × V)) :
    findVal k (l1 ++ l2)
      = match findVal k l1 with
        | some v => some v
        | none => findVal k l2 := by
  induction l1 with
  | nil => rfl
  | cons p rest ih =>
    obtain ⟨q, v⟩ := p
    by_cases h : q = k
    · simp [findVal, h]
    · simp [findVal, h, ih]

/-- A successful lookup key occurs among the keys of the list. -/
theorem findVal_isSome_mem {K V : Type} [DecidableEq K] (k : K)
    (l : List (K × V)) (h : (findVal k l).isSome) : k ∈ l.map Prod.fst := by
  induction l with
  | nil => cases h
  | cons p rest ih =>
    obtain ⟨q, v⟩ := p
    by_cases hq : q = k
    · simp [hq]
    · rw [show findVal k ((q, v) :: rest) = findVal k rest by simp [findVal, hq]] at h
      simp [ih h]

/-- Lookup after re-keying-preserving value transformation. -/
theorem findVal_map_snd {K V W : Type} [DecidableEq K] (f : V → W) (k : K)
    (l : List (K × V)) :
    findVal k (l.map (fun p => (p.1, f p.2))) = (findVal k l).map f := by
  induction l with
  | nil => rfl
  | cons p rest ih =>
    obtain ⟨q, v⟩ := p
    by_cases h : q = k
    · simp [findVal, h]
    · simp [findVal, h, ih]

/-- `extendWeights` preserves every existing entry. -/
theorem extendWeights_present (cs : List Nat) (k : Nat) (v : Rat) :
    ∀ ws : List (Nat × Rat), findVal k ws = some v →
      findVal k (extendWeights ws cs) = some v := by
  induction cs with
  | nil => exact fun ws h => h
  | cons d ds ih =>
    intro ws h
    simp only [extendWeights]
    by_cases hd : (findVal d ws).isSome
    · rw [if_pos hd]
      exact ih ws h
    · rw [if_neg hd]
      apply ih
      rw [findVal_append, h]

/-- The keys of `extendWeights ws cs` are the keys of `ws` together with
`cs`. -/
theorem extendWeights_keys (cs : List Nat) (k : Nat) :
    ∀ ws : List (Nat × Rat),
      ((findVal k (extendWeights ws cs)).isSome
        ↔ (findVal k ws).isSome ∨ k ∈ cs) := by
  induction cs with
  | nil => simp [extendWeights]
  | cons d ds ih =>
    intro ws
    simp only [extendWeights]
    by_cases hd : (findVal d ws).isSome
    · rw [if_pos hd, ih ws]
      constructor
      · rintro (h | h)
        · exact Or.inl h
        · exact Or.inr (List.mem_cons_of_mem d h)
      · rintro (h | h)
        · exact Or.inl h
        · rcases List.mem_cons.mp h with rfl | h2
          · exact Or.inl hd
          · exact Or.inr h2
    · rw [if_neg hd, ih (ws ++ [(d, 1)])]
      have happ : (findVal k (ws ++ [((d : Nat), (1 : Rat))])).isSome
          ↔ (findVal k ws).isSome ∨ k = d := by
        rw [findVal_append]
        cases hk : findVal k ws with
        | some v => simp
        | none =>
          by_cases hkd : d = k
          · simp [findVal, hkd, eq_comm]
          · have hdk : ¬k = d := fun hh => hkd hh.symm
            simp [findVal, hkd, hdk]
      rw [happ]
      constructor
      · rintro ((h | h) | h)
        · exact Or.inl h
        · exact Or.inr (List.mem_cons.mpr (Or.inl h))
        · exact Or.inr (List.mem_cons_of_mem d h)
      · rintro (h | h)
        · exact Or.inl (Or.inl h)
        · rcases List.mem_cons.mp h with rfl | h2
          · exact Or.inl (Or.inr rfl)
          · exact Or.inr h2

/-- A condition absent from the given weights is mapped to weight 1 by
`extendWeights`. -/
theorem extendWeights_absent (cs : List Nat) (c : Nat) :
    ∀ ws : List (Nat × Rat), c ∈ cs → findVal c ws = none →
      findVal c (extendWeights ws cs) = some 1 := by
  induction cs with
  | nil =>
    intro ws hc _
    cases hc
  | cons d ds ih =>
    intro ws hc habs
    simp only [extendWeights]
    by_cases hd : (findVal d ws).isSome
    · rw [if_pos hd]
      have hc' : c ∈ ds := by
        rcases List.mem_cons.mp hc with rfl | h
        · rw [habs] at hd
          cases hd
        · exact h
      exact ih ws hc' habs
    · rw [if_neg hd]
      by_cases hcd : c = d
      · subst hcd
        apply extendWeights_present
        rw [findVal_append, habs]
        simp [findVal]
      · have hc' : c ∈ ds := by
          rcases List.mem_cons.mp hc with rfl | h
          · exact absurd rfl hcd
          · exact h
        apply ih _ hc'
        rw [findVal_append, habs]
        have hdc : ¬d = c := fun hh => hcd hh.symm
        simp [findVal, hdc]

/-- Summing after dividing every value divides the sum. -/
theorem sum_map_div (l : List Rat) (s : Rat) :
    (l.map (fun x => x / s)).sum = l.sum / s := by
  induction l with
  | nil => simp
  | cons x xs ih => simp [ih, add_div]

/-- `val_sum` after renormalization equals the renormalized `val_sum`. -/
theorem val_sum_map_rdiv {K : Type} (l : List (K × Rat)) (s : Rat) :
    val_sum (l.map (fun p => (p.1, rdiv p.2 s))) = val_sum l / s := by
  unfold val_sum
  rw [rsum_eq, rsum_eq, List.map_map]
  have h1 : (Prod.snd ∘ fun p : K × Rat => (p.1, rdiv p.2 s))
      = (fun p : K × Rat => p.2 / s) := by
    funext p
    simp [rdiv_eq]
  rw [h1, show (fun p : K × Rat => p.2 / s)
      = ((fun x => x / s) ∘ Prod.snd) from rfl, ← List.map_map, sum_map_div]

/-- C10: for every rule built from a conclusion, conditions, and weights whose
keys are contained in the conditions, the resulting weight map has exactly the
conditions as keys; a condition absent from the given weights receives weight
1 (divided by the weight sum when that sum exceeds 1); the final weights sum
to at most 1; and when the initial sum exceeds 1 every weight is divided by
it. -/
theorem mkRule_spec (conc : Nat) (conds : List Nat)
    (weights : List (Nat × Rat))
    (hkeys : ∀ k ∈ weights.map Prod.fst, k ∈ conds) :
    (∀ k, (findVal k (mkRule conc conds weights).weights).isSome ↔ k ∈ conds) ∧
    (∀ c ∈ conds, findVal c weights = none →
      findVal c (mkRule conc conds weights).weights
        = some (if 1 < val_sum (extendWeights weights conds)
            then rdiv 1 (val_sum (extendWeights weights conds)) else 1)) ∧
    val_sum (mkRule conc conds weights).weights ≤ 1 ∧
    (1 < val_sum (extendWeights weights conds) →
      (mkRule conc conds weights).weights
        = (extendWeights weights conds).map
            (fun p => (p.1, rdiv p.2 (val_sum (extendWeights weights conds))))) := by
  have hmk : (mkRule conc conds weights).weights
      = if 1 < val_sum (extendWeights weights conds)
        then (extendWeights weights conds).map
          (fun p => (p.1, rdiv p.2 (val_sum (extendWeights weights conds))))
        else extendWeights weights conds := rfl
  have hkeyE : ∀ k, ((findVal k (extendWeights weights conds)).isSome ↔ k ∈ conds) := by
    intro k
    rw [extendWeights_keys conds k weights]
    constructor
    · rintro (h | h)
      · exact hkeys k (findVal_isSome_mem k weights h)
      · exact h
    · exact Or.inr
  refine ⟨?_, ?_, ?_, ?_⟩
  · intro k
    rw [hmk]
    split
    · rw [findVal_map_snd (fun v => rdiv v (val_sum (extendWeights weights conds)))
        k (extendWeights weights conds)]
      rw [Option.isSome_map']
      exact hkeyE k
    · exact hkeyE k
  · intro c hc habs
    have hE : findVal c (extendWeights weights conds) = some 1 :=
      extendWeights_absent conds c weights hc habs
    rw [hmk]
    split
    · rw [findVal_map_snd (fun v => rdiv v (val_sum (extendWeights weights conds)))
        c (extendWeights weights conds), hE]
      rfl
    · rw [hE]
  · rw [hmk]
    split
    · rename_i hlt
      rw [val_sum_map_rdiv]
      rw [div_self (ne_of_gt (lt_trans zero_lt_one hlt))]
    · rename_i hlt
      exact le_of_not_lt hlt
  · intro hlt
    rw [hmk, if_pos hlt]

/-- Witness for C10: the rule with conclusion 0, conditions 1 and 2, and given
weight 3/4 on condition 1: the missing condition 2 is filled with weight 1,
the sum 7/4 exceeds 1, so the weights are renormalized to 3/7 and 4/7, which
sum to 1. -/
theorem mkRule_spec_witness :
    ((findVal 2 (mkRule 0 [1, 2] [(1, mkRat 3 4)]).weights).isSome ↔ 2 ∈ [1, 2]) ∧
    findVal 2 (mkRule 0 [1, 2] [(1, mkRat 3 4)]).weights = some (mkRat 4 7) ∧
    val_sum (mkRule 0 [1, 2] [(1, mkRat 3 4)]).weights ≤ 1 :=
  ⟨(mkRule_spec 0 [1, 2] [(1, mkRat 3 4)] (by decide)).1 2,
   ((mkRule_spec 0 [1, 2] [(1, mkRat 3 4)] (by decide)).2.1 2 (by decide)
      (by decide)).trans (by decide),
   (mkRule_spec 0 [1, 2] [(1, mkRat 3 4)] (by decide)).2.2.1⟩

end PyClarion